import Mathlib

/-!
# Verification of the `pydoc_ext` module-name search core

Shallow embedding of `pydoc_ext/module_search.py`: the two search engines
`search_nested` and `search_fullname`, their scored-candidate records, and
their ranking keys.  The external fuzzy scorer
(`ulauncher.utils.fuzzy_search.get_score`) is modelled as an arbitrary
function `Scorer`; concrete instances (`zeroScorer`, `lenScorer`) are used to
evaluate the embedding on concrete inputs.

Modelling conventions:
* Python `str` is Lean `String`; `str.lower()` is character-wise ASCII
  case folding (`lowerStr`), `str.split(".")` is `splitOnDots`,
  `".".join(...)` is `joinDots`, `s.rstrip(".")` is `rstripDots`,
  `s.partition("*")` is `partitionStar`, `sub in s` is `isInfixB`.
* Python's stable `sorted(items, key=sort_key, reverse=True)` is modelled by
  `List.insertionSort` with the total preorder "key of the left argument is
  lexicographically ≥ key of the right argument"; a stable sort by a total
  preorder is extensionally unique, so this coincides with CPython's sort.
* `re.search` of the pattern built by `ordered_char_list_regex` (literal
  characters interleaved with lazy `.*?`) matches each pattern character at
  its earliest possible position; `regexSearchEnd` returns `match.span()[1]`,
  the index just past the last matched character, or `none` when the
  characters do not occur in order.
* Scores (`fuzzy_search.get_score` returns a float) are modelled as `ℚ`.
-/

/-- The external fuzzy scorer `fuzzy_search.get_score(pattern, text)`,
an arbitrary deterministic function into the rationals. -/
abbrev Scorer := String → String → ℚ

/-- Models Python `str.lower()` (ASCII case folding, character-wise). -/
def lowerStr (s : String) : String := ⟨s.data.map Char.toLower⟩

/-- Models Python `s.rstrip(".")`: remove every trailing `'.'`. -/
def rstripDots (s : String) : String :=
  ⟨(s.data.reverse.dropWhile (fun c => decide (c = '.'))).reverse⟩

/-- Split a character list at every `'.'`, with Python `str.split(".")`
semantics: the empty list yields one empty chunk, and separators at the
ends yield empty chunks. -/
def splitDots : List Char → List (List Char)
  | [] => [[]]
  | c :: cs =>
    if c = '.' then [] :: splitDots cs
    else
      match splitDots cs with
      | [] => [[c]]
      | h :: t => (c :: h) :: t

/-- Models Python `s.split(".")`. -/
def splitOnDots (s : String) : List String := (splitDots s.data).map (fun l => ⟨l⟩)

/-- Models Python `".".join(parts)`. -/
def joinDots : List String → String
  | [] => ""
  | [s] => s
  | s :: rest => s ++ "." ++ joinDots rest

/-- Python `<` on strings: lexicographic comparison of the character
sequences by code point, a strict prefix counting as smaller. -/
def charListLtB : List Char → List Char → Bool
  | [], [] => false
  | [], _ :: _ => true
  | _ :: _, [] => false
  | c :: cs, d :: ds => if c = d then charListLtB cs ds else decide (c < d)

/-- Python `<=` on strings (the negation of `>`, the order being total). -/
def strLeB (a b : String) : Bool := ! charListLtB b.data a.data

/-- `NestedNameSearchResultItem` (module_search.py lines 9-21): the scored
record built for one candidate in nested mode. -/
structure NestedNameSearchResultItem where
  module_name : String
  name_depth : Nat
  name_exact_match : Nat
  basename_match_score : ℚ
  basename_exact_match : Nat
  leafname_match_score : ℚ
deriving DecidableEq

/-- `score_name_query_match` (module_search.py lines 24-46): the basename and
leaf-name fuzzy scores of one candidate.  The basename used for scoring is
`".".join(name_chunks[: len(query_chunks) - 1])` (line 32); the leaf score
pairs the last query chunk with the candidate chunk at the same index
(lines 40-42), guarded only by the candidate having at least as many chunks. -/
def score_name_query_match (scorer : Scorer) (name_chunks query_chunks : List String)
    (basename_query : String) : ℚ × ℚ :=
  let basename_match_score : ℚ :=
    if 1 < query_chunks.length then
      scorer basename_query (joinDots (name_chunks.take (query_chunks.length - 1)))
    else 0
  let leafname_match_score : ℚ :=
    if query_chunks.length ≤ name_chunks.length then
      scorer (query_chunks.getD (query_chunks.length - 1) "")
             (name_chunks.getD (query_chunks.length - 1) "")
    else 0
  (basename_match_score, leafname_match_score)

/-- The record `search_nested` appends for one candidate
(module_search.py lines 94-110).  Note that the exact-match test on
line 105 compares the *original* candidate `name`, not its lower-cased
form, against the lower-cased stripped query. -/
def nestedItem (scorer : Scorer) (query name : String) : NestedNameSearchResultItem :=
  let query_chunks := splitOnDots (lowerStr query)
  let exact_match_query := rstripDots (lowerStr query)
  let basename_query := joinDots query_chunks.dropLast
  let name_chunks := splitOnDots (lowerStr name)
  let basename := joinDots name_chunks.dropLast
  let scores := score_name_query_match scorer name_chunks query_chunks basename_query
  { module_name := name
    name_depth := name_chunks.length
    name_exact_match := if name = exact_match_query then 1 else 0
    basename_match_score := scores.1
    basename_exact_match := if basename = basename_query then 1 else 0
    leafname_match_score := scores.2 }

/-- One step of a lexicographic comparator, highest-first on the projection
`f` and delegating to `rest` on ties.  `cmpThen f rest a b` says `a` may be
placed before `b`. -/
def cmpThen {β : Type} {α : Type} [LinearOrder α] (f : β → α) (rest : β → β → Bool)
    (a b : β) : Bool :=
  if f a = f b then rest a b else decide (f b < f a)

/-- `sort_key` together with `reverse=True` for nested mode
(module_search.py lines 112-123): `a` may precede `b` iff the key tuple
`(name_exact_match, basename_exact_match, basename_match_score,
leafname_match_score, name_depth, module_name)` of `a` is lexicographically
greater than or equal to that of `b`. -/
def nestedLe : NestedNameSearchResultItem → NestedNameSearchResultItem → Bool :=
  cmpThen (·.name_exact_match) <|
  cmpThen (·.basename_exact_match) <|
  cmpThen (·.basename_match_score) <|
  cmpThen (·.leafname_match_score) <|
  cmpThen (·.name_depth) <|
  fun a b => strLeB b.module_name a.module_name

/-- The sort relation of nested mode as a proposition. -/
def nestedRel (a b : NestedNameSearchResultItem) : Prop := nestedLe a b = true

instance : DecidableRel nestedRel := fun a b => instDecidableEqBool (nestedLe a b) true

/-- `search_nested` (module_search.py lines 49-125): the exact-match flag and
the ranked list of candidate names. -/
def search_nested (scorer : Scorer) (query : String) (module_names : List String) :
    Bool × List String :=
  let query_chunks := splitOnDots (lowerStr query)
  let exact_match_query := rstripDots (lowerStr query)
  let has_exact_match := module_names.any (fun name => decide (name = exact_match_query))
  let result_items :=
    (module_names.filter
        (fun name => decide ((splitOnDots (lowerStr name)).length ≤ query_chunks.length))).map
      (nestedItem scorer query)
  (has_exact_match, (List.insertionSort nestedRel result_items).map (·.module_name))

/-- `FullNameSearchResultItem` (module_search.py lines 128-136). -/
structure FullNameSearchResultItem where
  module_name : String
  head_match_score : ℚ
  tail_match_score : ℚ
  tail_exact_contains : Nat
deriving DecidableEq

/-- Helper for `partitionStar`: the chunks before and after the first `'*'`,
or `none` when there is no `'*'`. -/
def partitionStarChars : List Char → Option (List Char × List Char)
  | [] => none
  | c :: cs =>
    if c = '*' then some ([], cs)
    else
      match partitionStarChars cs with
      | none => none
      | some (h, t) => some (c :: h, t)

/-- Models Python `s.partition("*")`, keeping the two informative components:
the text before the first `'*'` and the text after it (the whole string and
`""` when there is no `'*'`). -/
def partitionStar (s : String) : String × String :=
  match partitionStarChars s.data with
  | none => (s, "")
  | some (h, t) => (⟨h⟩, ⟨t⟩)

/-- `re.search` of the pattern produced by `ordered_char_list_regex(pat)`
(module_search.py lines 139-143): literal characters interleaved with lazy
`.*?`.  Returns `match.span()[1]` — the position just past the last matched
character, each pattern character being matched at its earliest possible
occurrence — or `none` when the pattern characters do not all occur in order. -/
def regexSearchEnd : List Char → List Char → Nat → Option Nat
  | [], _, pos => some pos
  | _ :: _, [], _ => none
  | c :: ps, d :: ds, pos =>
    if d = c then regexSearchEnd ps ds (pos + 1)
    else regexSearchEnd (c :: ps) ds (pos + 1)

/-- Python list/string prefix test on character lists. -/
def isPrefixB : List Char → List Char → Bool
  | [], _ => true
  | _ :: _, [] => false
  | c :: cs, d :: ds => decide (c = d) && isPrefixB cs ds

/-- Models Python `sub in s` (substring containment) on character lists. -/
def isInfixB (sub : List Char) : List Char → Bool
  | [] => isPrefixB sub []
  | d :: ds => isPrefixB sub (d :: ds) || isInfixB sub ds

/-- The tail region of a candidate (`name_tail`, module_search.py
lines 191-202): the lower-cased name after the end of the head match.  The
`getD ... 0` mirrors `head_match.span()[1] if head_match else 0` (line 196);
when the head is empty the whole name is the tail region (line 202). -/
def nameTail (qhead name_lower : String) : String :=
  if qhead = "" then name_lower
  else ⟨name_lower.data.drop ((regexSearchEnd qhead.data name_lower.data 0).getD 0)⟩

/-- Whether a candidate survives the head-match test of `search_fullname`
(module_search.py lines 191-204): vacuous for an empty head, otherwise the
head characters must occur in order in the lower-cased name. -/
def headMatches (qhead name_lower : String) : Bool :=
  if qhead = "" then true else (regexSearchEnd qhead.data name_lower.data 0).isSome

/-- The record `search_fullname` appends for one candidate
(module_search.py lines 204-214). -/
def fullnameItem (scorer : Scorer) (qhead qtail name : String) : FullNameSearchResultItem :=
  let name_lower := lowerStr name
  let name_tail := nameTail qhead name_lower
  { module_name := name
    head_match_score := if qhead = "" then 0 else scorer qhead name_lower
    tail_match_score := if qtail = "" then 0 else scorer qtail name_tail
    tail_exact_contains := if isInfixB qtail.data name_tail.data then 1 else 0 }

/-- `sort_key` together with `reverse=True` for fullname mode
(module_search.py lines 216-224): descending lexicographic comparison of
`(tail_exact_contains, tail_match_score, head_match_score, module_name)`. -/
def fullnameLe : FullNameSearchResultItem → FullNameSearchResultItem → Bool :=
  cmpThen (·.tail_exact_contains) <|
  cmpThen (·.tail_match_score) <|
  cmpThen (·.head_match_score) <|
  fun a b => strLeB b.module_name a.module_name

/-- The sort relation of fullname mode as a proposition. -/
def fullnameRel (a b : FullNameSearchResultItem) : Prop := fullnameLe a b = true

instance : DecidableRel fullnameRel := fun a b => instDecidableEqBool (fullnameLe a b) true

/-- The body of `search_fullname` once the query has been partitioned into
`qhead` and `qtail` (module_search.py lines 185-224). -/
def search_fullname_ht (scorer : Scorer) (qhead qtail : String)
    (module_names : List String) : List String :=
  let result_items :=
    (module_names.filter (fun name => headMatches qhead (lowerStr name))).map
      (fullnameItem scorer qhead qtail)
  (List.insertionSort fullnameRel result_items).map (·.module_name)

/-- `search_fullname` (module_search.py lines 146-224): lower-case the query,
split it at the first `'*'` (line 181), then rank the candidates. -/
def search_fullname (scorer : Scorer) (query : String) (module_names : List String) :
    List String :=
  let p := partitionStar (lowerStr query)
  search_fullname_ht scorer p.1 p.2 module_names

/-- The `(pattern, text)` argument pairs of every `fuzzy_search.get_score`
call performed by `search_nested`, in program order: for each candidate that
passes the depth filter, the basename call (module_search.py line 33, made
iff the query has more than one chunk) and then the leaf call (lines 40-42,
made iff the candidate has at least as many chunks as the query). -/
def nested_score_calls (query : String) (module_names : List String) :
    List (String × String) :=
  let query_chunks := splitOnDots (lowerStr query)
  let basename_query := joinDots query_chunks.dropLast
  (module_names.filter
      (fun name => decide ((splitOnDots (lowerStr name)).length ≤ query_chunks.length))).flatMap
    (fun name =>
      let name_chunks := splitOnDots (lowerStr name)
      (if 1 < query_chunks.length then
        [(basename_query, joinDots (name_chunks.take (query_chunks.length - 1)))]
       else []) ++
      (if query_chunks.length ≤ name_chunks.length then
        [(query_chunks.getD (query_chunks.length - 1) "",
          name_chunks.getD (query_chunks.length - 1) "")]
       else []))

/-- The `(pattern, text)` argument pairs of every `fuzzy_search.get_score`
call performed by `search_fullname`, in program order: for each candidate
that passes the head-match test, the head call (module_search.py line 205,
made iff `qhead` is non-empty) and the tail call (line 206, made iff `qtail`
is non-empty). -/
def fullname_score_calls (query : String) (module_names : List String) :
    List (String × String) :=
  let p := partitionStar (lowerStr query)
  (module_names.filter (fun name => headMatches p.1 (lowerStr name))).flatMap
    (fun name =>
      (if p.1 = "" then [] else [(p.1, lowerStr name)]) ++
      (if p.2 = "" then [] else [(p.2, nameTail p.1 (lowerStr name))]))

/-- A scorer admissible under the FuzzyScorer contract that gives every pair
score 0. -/
def zeroScorer : Scorer := fun _ _ => 0

/-- A scorer admissible under the FuzzyScorer contract whose score is the
length of the scored text. -/
def lenScorer : Scorer := fun _ s => (s.data.length : ℚ)

/-- One step of an ascending lexicographic comparator (lowest-first on `f`),
used only to state the spec's claimed nested ranking order. -/
def cmpThenAsc {β : Type} {α : Type} [LinearOrder α] (f : β → α) (rest : β → β → Bool)
    (a b : β) : Bool :=
  if f a = f b then rest a b else decide (f a < f b)

/-- The nested-mode ranking order as the spec's ranking-key sentence states
it: the four match fields highest-first, then shallower names before deeper
ones, then ascending lexicographic name. -/
def nestedClaimLe : NestedNameSearchResultItem → NestedNameSearchResultItem → Bool :=
  cmpThen (·.name_exact_match) <|
  cmpThen (·.basename_exact_match) <|
  cmpThen (·.basename_match_score) <|
  cmpThen (·.leafname_match_score) <|
  cmpThenAsc (·.name_depth) <|
  fun a b => strLeB a.module_name b.module_name

/-! ## Order properties of the ranking comparators -/

theorem charListLtB_irrefl : ∀ l : List Char, charListLtB l l = false
  | [] => rfl
  | c :: cs => by simp [charListLtB, charListLtB_irrefl cs]

theorem charListLtB_trans : ∀ {a b c : List Char}, charListLtB a b = true →
    charListLtB b c = true → charListLtB a c = true
  | [], [], _, hab, _ => by simp [charListLtB] at hab
  | [], _ :: _, [], _, hbc => by simp [charListLtB] at hbc
  | [], _ :: _, _ :: _, _, _ => rfl
  | _ :: _, [], _, hab, _ => by simp [charListLtB] at hab
  | _ :: _, _ :: _, [], _, hbc => by simp [charListLtB] at hbc
  | x :: xs, y :: ys, z :: zs, hab, hbc => by
    simp only [charListLtB] at hab hbc ⊢
    by_cases hxy : x = y
    · subst hxy
      by_cases hyz : x = z
      · subst hyz
        simp only [if_pos rfl] at hab hbc ⊢
        exact charListLtB_trans hab hbc
      · simpa [hyz] using hbc
    · by_cases hyz : y = z
      · subst hyz
        simpa [hxy] using hab
      · simp only [if_neg hxy, decide_eq_true_eq] at hab
        simp only [if_neg hyz, decide_eq_true_eq] at hbc
        have hxz : x < z := lt_trans hab hbc
        simp [ne_of_lt hxz, hxz]

theorem charListLtB_connex : ∀ {a b : List Char}, charListLtB a b = false →
    charListLtB b a = false → a = b
  | [], [], _, _ => rfl
  | [], _ :: _, hab, _ => by simp [charListLtB] at hab
  | _ :: _, [], _, hba => by simp [charListLtB] at hba
  | x :: xs, y :: ys, hab, hba => by
    simp only [charListLtB] at hab hba
    by_cases hxy : x = y
    · subst hxy
      simp only [if_pos rfl] at hab hba
      rw [charListLtB_connex hab hba]
    · simp only [if_neg hxy, decide_eq_false_iff_not, not_lt] at hab
      simp only [if_neg (fun h : y = x => hxy h.symm), decide_eq_false_iff_not, not_lt] at hba
      exact absurd (le_antisymm hba hab) hxy

theorem strLeB_total (a b : String) : strLeB a b = true ∨ strLeB b a = true := by
  by_cases h : charListLtB b.data a.data = true
  · right
    have : charListLtB a.data b.data = false := by
      by_contra h2
      have h2' : charListLtB a.data b.data = true := by
        cases hv : charListLtB a.data b.data
        · exact absurd hv h2
        · rfl
      have := charListLtB_trans h h2'
      rw [charListLtB_irrefl] at this
      exact Bool.false_ne_true this
    simp [strLeB, this]
  · left
    have hf : charListLtB b.data a.data = false := by
      cases hv : charListLtB b.data a.data
      · rfl
      · exact absurd hv h
    simp [strLeB, hf]

theorem strLeB_trans {a b c : String} (hab : strLeB a b = true) (hbc : strLeB b c = true) :
    strLeB a c = true := by
  simp only [strLeB, Bool.not_eq_true'] at hab hbc ⊢
  by_contra hca
  have hca' : charListLtB c.data a.data = true := by
    cases hv : charListLtB c.data a.data
    · exact absurd hv hca
    · rfl
  cases hv : charListLtB a.data b.data with
  | true =>
    have := charListLtB_trans hca' hv
    rw [hbc] at this
    exact Bool.false_ne_true this
  | false =>
    have hdata : a.data = b.data := charListLtB_connex hv hab
    rw [← hdata] at hbc
    rw [hbc] at hca'
    exact Bool.false_ne_true hca'

theorem cmpThen_trans {β α : Type} [LinearOrder α] (f : β → α) (rest : β → β → Bool)
    (hrest : ∀ a b c, rest a b = true → rest b c = true → rest a c = true) :
    ∀ a b c, cmpThen f rest a b = true → cmpThen f rest b c = true →
      cmpThen f rest a c = true := by
  intro a b c hab hbc
  unfold cmpThen at hab hbc ⊢
  by_cases h1 : f a = f b
  · by_cases h2 : f b = f c
    · have h3 : f a = f c := h1.trans h2
      rw [if_pos h1] at hab
      rw [if_pos h2] at hbc
      rw [if_pos h3]
      exact hrest a b c hab hbc
    · rw [if_neg h2, decide_eq_true_eq] at hbc
      have h3 : f c < f a := h1 ▸ hbc
      rw [if_neg (ne_of_gt h3), decide_eq_true_eq]
      exact h3
  · rw [if_neg h1, decide_eq_true_eq] at hab
    by_cases h2 : f b = f c
    · have h3 : f c < f a := h2 ▸ hab
      rw [if_neg (ne_of_gt h3), decide_eq_true_eq]
      exact h3
    · rw [if_neg h2, decide_eq_true_eq] at hbc
      have h3 : f c < f a := lt_trans hbc hab
      rw [if_neg (ne_of_gt h3), decide_eq_true_eq]
      exact h3

theorem cmpThen_total {β α : Type} [LinearOrder α] (f : β → α) (rest : β → β → Bool)
    (hrest : ∀ a b, rest a b = true ∨ rest b a = true) :
    ∀ a b, cmpThen f rest a b = true ∨ cmpThen f rest b a = true := by
  intro a b
  unfold cmpThen
  by_cases h : f a = f b
  · rw [if_pos h, if_pos h.symm]
    exact hrest a b
  · rcases lt_or_gt_of_ne h with hlt | hgt
    · right
      rw [if_neg (fun hh => h hh.symm), decide_eq_true_eq]
      exact hlt
    · left
      rw [if_neg h, decide_eq_true_eq]
      exact hgt

theorem cmpThen_fst_le {β α : Type} [LinearOrder α] {f : β → α} {rest : β → β → Bool}
    {a b : β} (h : cmpThen f rest a b = true) : f b ≤ f a := by
  unfold cmpThen at h
  by_cases h1 : f a = f b
  · exact le_of_eq h1.symm
  · rw [if_neg h1, decide_eq_true_eq] at h
    exact le_of_lt h

theorem cmpThen_of_eq {β α : Type} [LinearOrder α] {f : β → α} {rest : β → β → Bool}
    {a b : β} (h : f a = f b) : cmpThen f rest a b = rest a b := by
  unfold cmpThen
  rw [if_pos h]

theorem nestedLe_trans : ∀ a b c : NestedNameSearchResultItem,
    nestedLe a b = true → nestedLe b c = true → nestedLe a c = true := by
  have base : ∀ a b c : NestedNameSearchResultItem,
      strLeB b.module_name a.module_name = true →
      strLeB c.module_name b.module_name = true →
      strLeB c.module_name a.module_name = true :=
    fun _ _ _ h1 h2 => strLeB_trans h2 h1
  exact cmpThen_trans _ _ (cmpThen_trans _ _ (cmpThen_trans _ _ (cmpThen_trans _ _
    (cmpThen_trans _ _ base))))

theorem nestedLe_total : ∀ a b : NestedNameSearchResultItem,
    nestedLe a b = true ∨ nestedLe b a = true := by
  have base : ∀ a b : NestedNameSearchResultItem,
      strLeB b.module_name a.module_name = true ∨
      strLeB a.module_name b.module_name = true :=
    fun a b => (strLeB_total b.module_name a.module_name)
  exact cmpThen_total _ _ (cmpThen_total _ _ (cmpThen_total _ _ (cmpThen_total _ _
    (cmpThen_total _ _ base))))

instance : IsTrans NestedNameSearchResultItem nestedRel :=
  ⟨fun a b c => nestedLe_trans a b c⟩

instance : IsTotal NestedNameSearchResultItem nestedRel :=
  ⟨fun a b => nestedLe_total a b⟩

theorem fullnameLe_trans : ∀ a b c : FullNameSearchResultItem,
    fullnameLe a b = true → fullnameLe b c = true → fullnameLe a c = true := by
  have base : ∀ a b c : FullNameSearchResultItem,
      strLeB b.module_name a.module_name = true →
      strLeB c.module_name b.module_name = true →
      strLeB c.module_name a.module_name = true :=
    fun _ _ _ h1 h2 => strLeB_trans h2 h1
  exact cmpThen_trans _ _ (cmpThen_trans _ _ (cmpThen_trans _ _ base))

theorem fullnameLe_total : ∀ a b : FullNameSearchResultItem,
    fullnameLe a b = true ∨ fullnameLe b a = true := by
  have base : ∀ a b : FullNameSearchResultItem,
      strLeB b.module_name a.module_name = true ∨
      strLeB a.module_name b.module_name = true :=
    fun a b => (strLeB_total b.module_name a.module_name)
  exact cmpThen_total _ _ (cmpThen_total _ _ (cmpThen_total _ _ base))

instance : IsTrans FullNameSearchResultItem fullnameRel :=
  ⟨fun a b c => fullnameLe_trans a b c⟩

instance : IsTotal FullNameSearchResultItem fullnameRel :=
  ⟨fun a b => fullnameLe_total a b⟩

/-! ## Membership structure of the two result lists -/

theorem nestedItem_module_name (scorer : Scorer) (q n : String) :
    (nestedItem scorer q n).module_name = n := rfl

theorem fullnameItem_module_name (scorer : Scorer) (qh qt n : String) :
    (fullnameItem scorer qh qt n).module_name = n := rfl

theorem mem_search_nested {scorer : Scorer} {q n : String} {names : List String} :
    n ∈ (search_nested scorer q names).2 ↔
      n ∈ names ∧ (splitOnDots (lowerStr n)).length ≤ (splitOnDots (lowerStr q)).length := by
  unfold search_nested
  simp only [List.mem_map, (List.perm_insertionSort nestedRel _).mem_iff]
  constructor
  · rintro ⟨it, ⟨m, hm, rfl⟩, rfl⟩
    rcases List.mem_filter.mp hm with ⟨hmem, hp⟩
    rw [nestedItem_module_name]
    exact ⟨hmem, by simpa using hp⟩
  · rintro ⟨hmem, hlen⟩
    exact ⟨nestedItem scorer q n,
      ⟨n, List.mem_filter.mpr ⟨hmem, by simpa using hlen⟩, rfl⟩, rfl⟩

theorem mem_search_fullname {scorer : Scorer} {q n : String} {names : List String} :
    n ∈ search_fullname scorer q names ↔
      n ∈ names ∧
        headMatches (partitionStar (lowerStr q)).1 (lowerStr n) = true := by
  unfold search_fullname search_fullname_ht
  simp only [List.mem_map, (List.perm_insertionSort fullnameRel _).mem_iff]
  constructor
  · rintro ⟨it, ⟨m, hm, rfl⟩, rfl⟩
    rcases List.mem_filter.mp hm with ⟨hmem, hp⟩
    rw [fullnameItem_module_name]
    exact ⟨hmem, hp⟩
  · rintro ⟨hmem, hok⟩
    exact ⟨fullnameItem scorer (partitionStar (lowerStr q)).1 (partitionStar (lowerStr q)).2 n,
      ⟨n, List.mem_filter.mpr ⟨hmem, hok⟩, rfl⟩, rfl⟩

/-! ## Character-level facts about case folding, dots and stars -/

theorem char_toNat_ofNat {n : Nat} (h : n.isValidChar) : (Char.ofNat n).toNat = n := by
  simp [Char.ofNat, h, Char.ofNatAux, Char.toNat, UInt32.toNat]

theorem char_isValidChar_of_lt {n : Nat} (h : n < 55296) : n.isValidChar := Or.inl h

/-- `Char.toLower` maps a character to a character that is not an ASCII
uppercase letter, changing only ASCII uppercase letters. -/
theorem toLower_eq_iff {c d : Char} (hd1 : ¬(65 ≤ d.toNat ∧ d.toNat ≤ 90))
    (hd2 : ¬(97 ≤ d.toNat ∧ d.toNat ≤ 122)) : Char.toLower c = d ↔ c = d := by
  constructor
  · intro h
    by_cases hc : c.toNat ≥ 65 ∧ c.toNat ≤ 90
    · exfalso
      simp only [Char.toLower, if_pos hc] at h
      have hv : (c.toNat + 32).isValidChar := char_isValidChar_of_lt (by omega)
      have := congrArg Char.toNat h
      rw [char_toNat_ofNat hv] at this
      exact hd2 ⟨by omega, by omega⟩
    · simpa [Char.toLower, if_neg hc] using h
  · intro h
    subst h
    exact if_neg (fun hc : c.toNat ≥ 65 ∧ c.toNat ≤ 90 => hd1 ⟨hc.1, hc.2⟩)

theorem toLower_dot_iff {c : Char} : Char.toLower c = '.' ↔ c = '.' :=
  toLower_eq_iff (by decide) (by decide)

theorem toLower_star_iff {c : Char} : Char.toLower c = '*' ↔ c = '*' :=
  toLower_eq_iff (by decide) (by decide)

theorem toLower_toLower (c : Char) : Char.toLower (Char.toLower c) = Char.toLower c := by
  by_cases hc : c.toNat ≥ 65 ∧ c.toNat ≤ 90
  · have hv : (c.toNat + 32).isValidChar := char_isValidChar_of_lt (by omega)
    have hrange : (Char.ofNat (c.toNat + 32)).toNat = c.toNat + 32 := char_toNat_ofNat hv
    simp only [Char.toLower, if_pos hc]
    rw [if_neg]
    intro hcontra
    rw [hrange] at hcontra
    omega
  · simp only [Char.toLower, if_neg hc]

/-! ## Segment counting: `split` length is dot count plus one -/

theorem splitDots_ne_nil : ∀ l : List Char, splitDots l ≠ []
  | [] => by simp [splitDots]
  | c :: cs => by
    by_cases h : c = '.'
    · simp [splitDots, h]
    · simp only [splitDots, if_neg h]
      cases hs : splitDots cs with
      | nil => simp
      | cons hh tt => simp

theorem splitDots_length : ∀ l : List Char, (splitDots l).length = l.count '.' + 1
  | [] => by simp [splitDots]
  | c :: cs => by
    by_cases h : c = '.'
    · subst h
      simp [splitDots, List.count_cons, splitDots_length cs]
    · simp only [splitDots, if_neg h]
      cases hs : splitDots cs with
      | nil => exact absurd hs (splitDots_ne_nil cs)
      | cons hh tt =>
        have := splitDots_length cs
        rw [hs] at this
        simp only [List.length_cons] at this ⊢
        simp [List.count_cons, h, this]

theorem splitOnDots_length (s : String) :
    (splitOnDots s).length = s.data.count '.' + 1 := by
  simp [splitOnDots, splitDots_length]

theorem count_dot_map_toLower : ∀ l : List Char,
    (l.map Char.toLower).count '.' = l.count '.'
  | [] => rfl
  | c :: cs => by
    simp only [List.map_cons, List.count_cons, count_dot_map_toLower cs]
    congr 1
    by_cases h : c = '.'
    · simp [h, toLower_dot_iff.mpr h]
    · have h2 : Char.toLower c ≠ '.' := fun hc => h (toLower_dot_iff.mp hc)
      simp [h, h2]

theorem splitOnDots_lowerStr_length (s : String) :
    (splitOnDots (lowerStr s)).length = (splitOnDots s).length := by
  simp [splitOnDots_length, lowerStr, count_dot_map_toLower]

/-! ## Facts about `rstripDots` -/

theorem rstripDots_data_sublist (s : String) : (rstripDots s).data.Sublist s.data := by
  have h1 : ((s.data.reverse.dropWhile (fun c => decide (c = '.'))).reverse).Sublist
      s.data.reverse.reverse :=
    List.reverse_sublist.mpr (List.dropWhile_sublist _)
  simpa [rstripDots] using h1

theorem count_rstripDots_le (s : String) :
    (rstripDots s).data.count '.' ≤ s.data.count '.' :=
  (rstripDots_data_sublist s).count_le '.'

theorem lowerStr_of_all_lower {t : String} (h : ∀ x ∈ t.data, Char.toLower x = x) :
    lowerStr t = t := by
  have : t.data.map Char.toLower = t.data := by
    rw [List.map_congr_left h]
    exact List.map_id t.data
  simp [lowerStr, this]

theorem lowerStr_rstripDots_lowerStr (q : String) :
    lowerStr (rstripDots (lowerStr q)) = rstripDots (lowerStr q) := by
  apply lowerStr_of_all_lower
  intro x hx
  have hx2 : x ∈ (lowerStr q).data := (rstripDots_data_sublist (lowerStr q)).subset hx
  simp only [lowerStr] at hx2
  rcases List.mem_map.mp hx2 with ⟨y, _, rfl⟩
  exact toLower_toLower y

/-- The lower-cased stripped query never has more segments than the
lower-cased query itself. -/
theorem exact_match_query_depth_le (q : String) :
    (splitOnDots (lowerStr (rstripDots (lowerStr q)))).length ≤
      (splitOnDots (lowerStr q)).length := by
  rw [lowerStr_rstripDots_lowerStr, splitOnDots_length, splitOnDots_length]
  have := count_rstripDots_le (lowerStr q)
  omega

/-! ## Joining the split chunks gives back the string -/

/-- Character-level `".".join`. -/
def charJoin : List (List Char) → List Char
  | [] => []
  | [x] => x
  | x :: rest => x ++ '.' :: charJoin rest

theorem charJoin_splitDots : ∀ l : List Char, charJoin (splitDots l) = l
  | [] => rfl
  | c :: cs => by
    by_cases h : c = '.'
    · subst h
      simp only [splitDots, if_pos rfl]
      cases hs : splitDots cs with
      | nil => exact absurd hs (splitDots_ne_nil cs)
      | cons hh tt =>
        have ih := charJoin_splitDots cs
        rw [hs] at ih
        show charJoin ([] :: hh :: tt) = '.' :: cs
        show ([] : List Char) ++ '.' :: charJoin (hh :: tt) = '.' :: cs
        rw [List.nil_append, ih]
    · simp only [splitDots, if_neg h]
      cases hs : splitDots cs with
      | nil => exact absurd hs (splitDots_ne_nil cs)
      | cons hh tt =>
        have ih := charJoin_splitDots cs
        rw [hs] at ih
        cases tt with
        | nil =>
          show (c :: hh : List Char) = c :: cs
          rw [show hh = cs from ih]
        | cons t1 t2 =>
          show (c :: hh) ++ '.' :: charJoin (t1 :: t2) = c :: cs
          rw [List.cons_append]
          have : hh ++ '.' :: charJoin (t1 :: t2) = cs := ih
          rw [this]

theorem joinDots_map_mk : ∀ xs : List (List Char),
    joinDots (xs.map (fun l => (⟨l⟩ : String))) = ⟨charJoin xs⟩
  | [] => rfl
  | [x] => rfl
  | x :: y :: rest => by
    have ih := joinDots_map_mk (y :: rest)
    simp only [List.map_cons] at ih ⊢
    show (⟨x⟩ : String) ++ "." ++
      joinDots ((⟨y⟩ : String) :: rest.map (fun l => (⟨l⟩ : String))) = _
    rw [ih]
    show (⟨x ++ ['.'] ++ ('.' :: charJoin (y :: rest)).tail⟩ : String) = _
    simp [charJoin]

theorem joinDots_splitOnDots (s : String) : joinDots (splitOnDots s) = s := by
  unfold splitOnDots
  rw [joinDots_map_mk, charJoin_splitDots]

/-! ## The head regex succeeds exactly on ordered subsequences -/

theorem regexSearchEnd_isSome_iff :
    ∀ (s pat : List Char) (pos : Nat),
      (regexSearchEnd pat s pos).isSome = true ↔ pat.Sublist s := by
  intro s
  induction s with
  | nil =>
    intro pat pos
    cases pat with
    | nil => simp [regexSearchEnd]
    | cons c ps => simp [regexSearchEnd]
  | cons d ds ih =>
    intro pat pos
    cases pat with
    | nil => simp [regexSearchEnd, List.nil_sublist]
    | cons c ps =>
      simp only [regexSearchEnd]
      by_cases h : d = c
      · subst h
        rw [if_pos rfl, ih ps (pos + 1)]
        exact (List.cons_sublist_cons).symm
      · rw [if_neg h, ih (c :: ps) (pos + 1)]
        constructor
        · intro hsub
          exact hsub.cons d
        · intro hsub
          cases hsub with
          | cons _ htail => exact htail
          | cons₂ _ _ => exact absurd rfl h

/-! ## Partitioning at the first asterisk -/

theorem partitionStarChars_append :
    ∀ (h t : List Char), '*' ∉ h → partitionStarChars (h ++ '*' :: t) = some (h, t)
  | [], t, _ => by simp [partitionStarChars]
  | c :: h', t, hmem => by
    have hc : c ≠ '*' := fun hc => hmem (hc ▸ List.mem_cons_self c h')
    have ih := partitionStarChars_append h' t (fun hm => hmem (List.mem_cons_of_mem c hm))
    simp only [List.cons_append, partitionStarChars, if_neg hc]
    rw [show h'.append ('*' :: t) = h' ++ '*' :: t from rfl, ih]

theorem star_not_mem_lowerStr {h : String} (hh : '*' ∉ h.data) : '*' ∉ (lowerStr h).data := by
  intro hmem
  simp only [lowerStr] at hmem
  rcases List.mem_map.mp hmem with ⟨y, hy, hl⟩
  exact hh (toLower_star_iff.mp hl ▸ hy)

theorem lowerStr_data_append (a b : String) :
    (lowerStr (a ++ b)).data = (lowerStr a).data ++ (lowerStr b).data := by
  simp [lowerStr, String.data_append]

theorem partitionStar_lowerStr_around_star {h t : String} (hh : '*' ∉ h.data) :
    partitionStar (lowerStr (h ++ "*" ++ t)) = (lowerStr h, lowerStr t) := by
  have hdata : (lowerStr (h ++ "*" ++ t)).data =
      (lowerStr h).data ++ '*' :: (lowerStr t).data := by
    rw [lowerStr_data_append, lowerStr_data_append]
    have : (lowerStr "*").data = ['*'] := rfl
    rw [this, List.append_assoc]
    rfl
  unfold partitionStar
  rw [hdata, partitionStarChars_append _ _ (star_not_mem_lowerStr hh)]

/-! ## Substring containment agrees with `List.IsInfix` -/

theorem isPrefixB_iff : ∀ a b : List Char, isPrefixB a b = true ↔ a <+: b
  | [], _ => by simp [isPrefixB]
  | _ :: _, [] => by
    simp only [isPrefixB, Bool.false_eq_true, false_iff]
    intro hpre
    exact absurd (List.IsPrefix.length_le hpre) (by simp)
  | c :: cs, d :: ds => by
    simp only [isPrefixB, Bool.and_eq_true, decide_eq_true_eq, isPrefixB_iff cs ds]
    constructor
    · rintro ⟨rfl, ⟨rest, rfl⟩⟩
      exact ⟨rest, by simp⟩
    · rintro ⟨rest, hrest⟩
      simp only [List.cons_append] at hrest
      injection hrest with h1 h2
      exact ⟨h1, h2 ▸ ⟨rest, rfl⟩⟩

theorem isInfixB_iff : ∀ b a : List Char, isInfixB a b = true ↔ a <:+: b
  | [], a => by
    simp [isInfixB, isPrefixB_iff, List.prefix_nil, List.infix_nil]
  | d :: ds, a => by
    simp only [isInfixB, Bool.or_eq_true, isPrefixB_iff, isInfixB_iff ds a]
    exact (List.infix_cons_iff).symm

/-! ## Recovering the scored items behind the returned names -/

theorem nestedLe_exact_le {a b : NestedNameSearchResultItem}
    (h : nestedLe a b = true) : b.name_exact_match ≤ a.name_exact_match :=
  cmpThen_fst_le h

theorem fullnameLe_contains_le {a b : FullNameSearchResultItem}
    (h : fullnameLe a b = true) : b.tail_exact_contains ≤ a.tail_exact_contains :=
  cmpThen_fst_le h

theorem search_nested_output_items (scorer : Scorer) (q : String) (names : List String) :
    (search_nested scorer q names).2.map (nestedItem scorer q) =
      List.insertionSort nestedRel
        ((names.filter (fun name =>
            decide ((splitOnDots (lowerStr name)).length ≤
              (splitOnDots (lowerStr q)).length))).map (nestedItem scorer q)) := by
  unfold search_nested
  rw [List.map_map]
  have hfix : ∀ it ∈ List.insertionSort nestedRel
      ((names.filter (fun name =>
          decide ((splitOnDots (lowerStr name)).length ≤
            (splitOnDots (lowerStr q)).length))).map (nestedItem scorer q)),
      (nestedItem scorer q ∘ (·.module_name)) it = id it := by
    intro it hit
    have hmem := (List.perm_insertionSort nestedRel _).mem_iff.mp hit
    rcases List.mem_map.mp hmem with ⟨m, _, rfl⟩
    rfl
  rw [List.map_congr_left hfix, List.map_id]

/-- The items of `search_fullname_ht`, recovered from the returned names. -/
def fullnameOutputItems (scorer : Scorer) (q : String) (names : List String) :
    List FullNameSearchResultItem :=
  (search_fullname scorer q names).map
    (fullnameItem scorer (partitionStar (lowerStr q)).1 (partitionStar (lowerStr q)).2)

theorem search_fullname_output_items (scorer : Scorer) (q : String) (names : List String) :
    fullnameOutputItems scorer q names =
      List.insertionSort fullnameRel
        ((names.filter (fun name =>
            headMatches (partitionStar (lowerStr q)).1 (lowerStr name))).map
          (fullnameItem scorer (partitionStar (lowerStr q)).1 (partitionStar (lowerStr q)).2)) := by
  unfold fullnameOutputItems search_fullname search_fullname_ht
  rw [List.map_map]
  have hfix : ∀ it ∈ List.insertionSort fullnameRel
      ((names.filter (fun name =>
          headMatches (partitionStar (lowerStr q)).1 (lowerStr name))).map
        (fullnameItem scorer (partitionStar (lowerStr q)).1 (partitionStar (lowerStr q)).2)),
      (fullnameItem scorer (partitionStar (lowerStr q)).1 (partitionStar (lowerStr q)).2 ∘
        (·.module_name)) it = id it := by
    intro it hit
    have hmem := (List.perm_insertionSort fullnameRel _).mem_iff.mp hit
    rcases List.mem_map.mp hmem with ⟨m, _, rfl⟩
    rfl
  rw [List.map_congr_left hfix, List.map_id]

/-! ## Claim theorems -/

/-- C1 (counterexample): for query `"http"` and candidates `["HTTP"]`, the
candidate case-folds exactly to the stripped query, yet the exact-match flag
is `false`: line 92 of module_search.py compares the original candidate, not
its case-folded form, with `exact_match_query`. -/
theorem C1_counterexample :
    lowerStr "HTTP" = rstripDots (lowerStr "http") ∧
      (search_nested zeroScorer "http" ["HTTP"]).1 = false := by
  exact ⟨by decide, by decide⟩

/-- C1 (amended): `exact_match_found` is true iff some candidate equals —
with its original spelling, not case-folded — the lower-cased query with
trailing delimiters stripped, and `name_exact_match` is 1 iff the original
candidate equals that string. -/
theorem C1_exact_match_flag (scorer : Scorer) (q : String) (names : List String) :
    ((search_nested scorer q names).1 = true ↔ rstripDots (lowerStr q) ∈ names) ∧
      ∀ n : String, (nestedItem scorer q n).name_exact_match =
        if n = rstripDots (lowerStr q) then 1 else 0 := by
  constructor
  · unfold search_nested
    simp only [List.any_eq_true, decide_eq_true_eq]
    constructor
    · rintro ⟨m, hm, rfl⟩
      exact hm
    · intro h
      exact ⟨_, h, rfl⟩
  · intro n
    rfl

/-- C3 (counterexample): for query `"b."` (trailing delimiter, hence an
empty last query segment) and candidate `"a.a"`, `search_nested` invokes the
fuzzy scorer with the empty pattern `""` against `"a"`: the leaf-score call
site has no emptiness guard. -/
theorem C3_counterexample : ("", "a") ∈ nested_score_calls "b." ["a.a"] := by decide

/-- C3 (amended): `search_fullname` never calls the scorer with an empty
pattern (both its call sites are guarded); in `search_nested` every call's
pattern is the basename query or the query's last segment, so when the last
segment is non-empty and — for multi-segment queries — the basename query is
non-empty, no call has an empty pattern. -/
theorem C3_no_empty_patterns (q : String) (names : List String) :
    (∀ c ∈ fullname_score_calls q names, c.1 ≠ "") ∧
      ((splitOnDots (lowerStr q)).getD ((splitOnDots (lowerStr q)).length - 1) "" ≠ "" →
        (1 < (splitOnDots (lowerStr q)).length →
          joinDots (splitOnDots (lowerStr q)).dropLast ≠ "") →
        ∀ c ∈ nested_score_calls q names, c.1 ≠ "") := by
  constructor
  · intro c hc
    simp only [fullname_score_calls, List.mem_flatMap] at hc
    rcases hc with ⟨name, _, hin⟩
    rcases List.mem_append.mp hin with h | h
    · by_cases hp : (partitionStar (lowerStr q)).1 = ""
      · rw [if_pos hp] at h
        exact absurd h (List.not_mem_nil c)
      · rw [if_neg hp] at h
        rcases List.mem_singleton.mp h with rfl
        exact hp
    · by_cases hp : (partitionStar (lowerStr q)).2 = ""
      · rw [if_pos hp] at h
        exact absurd h (List.not_mem_nil c)
      · rw [if_neg hp] at h
        rcases List.mem_singleton.mp h with rfl
        exact hp
  · intro hleaf hbase c hc
    simp only [nested_score_calls, List.mem_flatMap] at hc
    rcases hc with ⟨name, _, hin⟩
    rcases List.mem_append.mp hin with h | h
    · by_cases hq : 1 < (splitOnDots (lowerStr q)).length
      · rw [if_pos hq] at h
        rcases List.mem_singleton.mp h with rfl
        exact hbase hq
      · rw [if_neg hq] at h
        exact absurd h (List.not_mem_nil c)
    · by_cases hlen : (splitOnDots (lowerStr q)).length ≤
          (splitOnDots (lowerStr name)).length
      · rw [if_pos hlen] at h
        rcases List.mem_singleton.mp h with rfl
        exact hleaf
      · rw [if_neg hlen] at h
        exact absurd h (List.not_mem_nil c)

theorem C3_witness : (("b", "y") : String × String).1 ≠ "" :=
  (C3_no_empty_patterns "a.b" ["x.y"]).2 (by decide) (fun _ => by decide)
    ("b", "y") (by decide)

/-- C4 (counterexample): query `"a.b.c"`, candidate `"x.y"` (shallower than
the query, and a genuine member of the result list): the basename score is
computed against `"x.y"` — the candidate's first two segments — not against
the candidate's basename `"x"`; a scorer measuring text length distinguishes
the two. -/
theorem C4_counterexample :
    "x.y" ∈ (search_nested lenScorer "a.b.c" ["x.y"]).2 ∧
      (nestedItem lenScorer "a.b.c" "x.y").basename_match_score ≠
        lenScorer (joinDots (splitOnDots (lowerStr "a.b.c")).dropLast)
          (joinDots (splitOnDots (lowerStr "x.y")).dropLast) := by
  exact ⟨by decide, by decide⟩

/-- C4 (amended): for a multi-segment query the basename score is the fuzzy
score of the basename query against the candidate's first
(query depth − 1) segments rejoined — which is the candidate's basename
exactly when candidate depth equals query depth, and the whole lower-cased
candidate when the candidate is strictly shallower; for a single-segment
query the basename score is 0. -/
theorem C4_basename_score (scorer : Scorer) (q n : String) :
    (1 < (splitOnDots (lowerStr q)).length →
        (nestedItem scorer q n).basename_match_score =
          scorer (joinDots (splitOnDots (lowerStr q)).dropLast)
            (joinDots ((splitOnDots (lowerStr n)).take
              ((splitOnDots (lowerStr q)).length - 1))) ∧
        ((splitOnDots (lowerStr n)).length = (splitOnDots (lowerStr q)).length →
          joinDots ((splitOnDots (lowerStr n)).take
              ((splitOnDots (lowerStr q)).length - 1)) =
            joinDots (splitOnDots (lowerStr n)).dropLast) ∧
        ((splitOnDots (lowerStr n)).length < (splitOnDots (lowerStr q)).length →
          joinDots ((splitOnDots (lowerStr n)).take
              ((splitOnDots (lowerStr q)).length - 1)) =
            lowerStr n)) ∧
      (¬ 1 < (splitOnDots (lowerStr q)).length →
        (nestedItem scorer q n).basename_match_score = 0) := by
  constructor
  · intro hq
    refine ⟨?_, ?_, ?_⟩
    · show (score_name_query_match scorer (splitOnDots (lowerStr n))
        (splitOnDots (lowerStr q)) (joinDots (splitOnDots (lowerStr q)).dropLast)).1 = _
      unfold score_name_query_match
      simp only [if_pos hq]
    · intro heq
      rw [← heq, ← List.dropLast_eq_take]
    · intro hlt
      rw [List.take_of_length_le (by omega), joinDots_splitOnDots]
  · intro hq
    show (score_name_query_match scorer (splitOnDots (lowerStr n))
      (splitOnDots (lowerStr q)) (joinDots (splitOnDots (lowerStr q)).dropLast)).1 = 0
    unfold score_name_query_match
    simp only [if_neg hq]

theorem C4_witness :
    (nestedItem lenScorer "a.b.c" "x.y").basename_match_score =
        lenScorer (joinDots (splitOnDots (lowerStr "a.b.c")).dropLast)
          (joinDots ((splitOnDots (lowerStr "x.y")).take
            ((splitOnDots (lowerStr "a.b.c")).length - 1))) ∧
      joinDots ((splitOnDots (lowerStr "x.y")).take
          ((splitOnDots (lowerStr "a.b.c")).length - 1)) = lowerStr "x.y" :=
  ⟨((C4_basename_score lenScorer "a.b.c" "x.y").1 (by decide)).1,
   ((C4_basename_score lenScorer "a.b.c" "x.y").1 (by decide)).2.2 (by decide)⟩

/-- C5: no name returned by nested search has more segments than the query;
deeper candidates are excluded from the list entirely. -/
theorem C5_depth_filter (scorer : Scorer) (q : String) (names : List String) :
    ∀ n ∈ (search_nested scorer q names).2,
      (splitOnDots n).length ≤ (splitOnDots q).length := by
  intro n hn
  have h := (mem_search_nested.mp hn).2
  rw [splitOnDots_lowerStr_length, splitOnDots_lowerStr_length] at h
  exact h

theorem C5_witness : (splitOnDots "a").length ≤ (splitOnDots "a").length :=
  C5_depth_filter zeroScorer "a" ["a"] "a" (by decide)

/-- C6: a candidate appears in the fullname results iff the query head (the
part before the first asterisk) is empty or its characters occur, in order,
as a subsequence of the case-folded candidate. -/
theorem C6_head_match (scorer : Scorer) (q : String) (names : List String) (n : String) :
    n ∈ search_fullname scorer q names ↔
      n ∈ names ∧ ((partitionStar (lowerStr q)).1 = "" ∨
        (partitionStar (lowerStr q)).1.data.Sublist (lowerStr n).data) := by
  rw [mem_search_fullname]
  apply and_congr_right
  intro _
  unfold headMatches
  by_cases hq : (partitionStar (lowerStr q)).1 = ""
  · simp [hq]
  · rw [if_neg hq, regexSearchEnd_isSome_iff]
    exact (or_iff_right hq).symm

/-- C9: every name output by either engine is one of the input candidates
(with its original spelling — the items store the unmodified name). -/
theorem C9_subset (scorer : Scorer) (q : String) (names : List String) (n : String) :
    (n ∈ (search_nested scorer q names).2 → n ∈ names) ∧
      (n ∈ search_fullname scorer q names → n ∈ names) :=
  ⟨fun h => (mem_search_nested.mp h).1, fun h => (mem_search_fullname.mp h).1⟩

theorem C9_witness : ("a" : String) ∈ ["a"] ∧ ("b" : String) ∈ ["b"] :=
  ⟨(C9_subset zeroScorer "a" ["a"] "a").1 (by decide),
   (C9_subset zeroScorer "*" ["b"] "b").2 (by decide)⟩

/-- C10: the query is split only at the first asterisk — the rest of the
query, later asterisks included, is the literal tail handed to the fuzzy
scorer and to the containment test of `search_fullname_ht`. -/
theorem C10_first_star_only (scorer : Scorer) (h t : String) (names : List String)
    (hstar : '*' ∉ h.data) :
    search_fullname scorer (h ++ "*" ++ t) names =
      search_fullname_ht scorer (lowerStr h) (lowerStr t) names := by
  unfold search_fullname
  rw [partitionStar_lowerStr_around_star hstar]

theorem C10_witness :
    search_fullname zeroScorer ("a" ++ "*" ++ "b*c") ["ab*cd"] =
      search_fullname_ht zeroScorer (lowerStr "a") (lowerStr "b*c") ["ab*cd"] :=
  C10_first_star_only zeroScorer "a" "b*c" ["ab*cd"] (by decide)

/-- C2 (counterexample): with every score tied (identical scorer arguments
for `"A"` and `"a"`, no scorer distinguishes the depth-1 candidates), the
code returns `["y.z", "x", "a", "A"]`: the deeper name first and full ties
broken by *descending* name — the claimed shallower-first, ascending-name
order is violated on both components. -/
theorem C2_counterexample :
    (search_nested zeroScorer "a.b" ["x", "y.z", "A", "a"]).2 = ["y.z", "x", "a", "A"] ∧
      ¬ List.Pairwise (fun a b => nestedClaimLe a b = true)
          ((search_nested zeroScorer "a.b" ["x", "y.z", "A", "a"]).2.map
            (nestedItem zeroScorer "a.b")) := by
  exact ⟨by decide, by decide⟩

/-- C2 (amended): the ranked order of nested search is by the descending
lexicographic key `(name_exact_match, basename_exact_match,
basename_match_score, leafname_match_score, name_depth, module_name)` taken
as a whole (`reverse=True`): among candidates tied on the four match fields,
deeper names come before shallower ones, and the final deterministic
tie-break is descending lexicographic comparison of the name. -/
theorem C2_ranking_order (scorer : Scorer) (q : String) (names : List String) :
    List.Pairwise nestedRel
      ((search_nested scorer q names).2.map (nestedItem scorer q)) := by
  rw [search_nested_output_items]
  exact List.sorted_insertionSort nestedRel _

/-- C7: the fullname ranking is by the descending lexicographic key
`(tail_exact_contains, tail_match_score, head_match_score, module_name)`;
in particular, among candidates tied on both fuzzy scores, one whose tail
region literally contains the tail (`tail_exact_contains = 1`) is placed
strictly before one whose does not (`tail_exact_contains = 0`). -/
theorem C7_tail_containment_priority (scorer : Scorer) (q : String) (names : List String) :
    List.Pairwise fullnameRel (fullnameOutputItems scorer q names) ∧
      ∀ i j : Fin (fullnameOutputItems scorer q names).length,
        ((fullnameOutputItems scorer q names).get i).tail_match_score =
          ((fullnameOutputItems scorer q names).get j).tail_match_score →
        ((fullnameOutputItems scorer q names).get i).head_match_score =
          ((fullnameOutputItems scorer q names).get j).head_match_score →
        ((fullnameOutputItems scorer q names).get i).tail_exact_contains = 0 →
        ((fullnameOutputItems scorer q names).get j).tail_exact_contains = 1 →
        j < i := by
  have hpair : List.Pairwise fullnameRel (fullnameOutputItems scorer q names) := by
    rw [search_fullname_output_items]
    exact List.sorted_insertionSort fullnameRel _
  refine ⟨hpair, ?_⟩
  intro i j h1 h2 h3 h4
  rcases lt_trichotomy i j with hij | hij | hij
  · exfalso
    have hrel := List.pairwise_iff_get.mp hpair i j hij
    have := fullnameLe_contains_le hrel
    rw [h3, h4] at this
    omega
  · exfalso
    rw [hij, h4] at h3
    omega
  · exact hij

theorem C7_witness :
    (⟨0, by decide⟩ : Fin (fullnameOutputItems zeroScorer "*b" ["xay", "xby"]).length) <
      ⟨1, by decide⟩ :=
  (C7_tail_containment_priority zeroScorer "*b" ["xay", "xby"]).2
    ⟨1, by decide⟩ ⟨0, by decide⟩ (by decide) (by decide) (by decide) (by decide)

/-- C8 (counterexample): query `"x."`, candidates `["X", "x.z"]`: `"X"`
case-folds to the stripped query `"x"` — an exact match in the spec's
case-folded sense — yet the first ranked name is `"x.z"`, which is not one:
its exact-basename flag dominates (this holds for every scorer, since the
decision is made at the flag components of the key). -/
theorem C8_counterexample :
    lowerStr "X" = rstripDots (lowerStr "x.") ∧
      (search_nested zeroScorer "x." ["X", "x.z"]).2.head? = some "x.z" ∧
      lowerStr "x.z" ≠ rstripDots (lowerStr "x.") := by
  exact ⟨by decide, by decide, by decide⟩

/-- C8 (amended): if the lower-cased stripped query occurs verbatim among
the candidates (the code's exact-match condition, which also guarantees the
depth filter passes), the first element of the ranked list is exactly that
candidate. -/
theorem C8_exact_match_first (scorer : Scorer) (q : String) (names : List String)
    (hex : rstripDots (lowerStr q) ∈ names) :
    (search_nested scorer q names).2.head? = some (rstripDots (lowerStr q)) := by
  set emq := rstripDots (lowerStr q) with hemq
  set p : String → Bool := fun name =>
    decide ((splitOnDots (lowerStr name)).length ≤ (splitOnDots (lowerStr q)).length)
    with hp
  set items := (names.filter p).map (nestedItem scorer q) with hitemsdef
  have hout : (search_nested scorer q names).2 =
      (List.insertionSort nestedRel items).map (·.module_name) := rfl
  have hpemq : p emq = true := by
    rw [hp]
    exact decide_eq_true (hemq ▸ exact_match_query_depth_le q)
  have hmem_sort : nestedItem scorer q emq ∈ List.insertionSort nestedRel items :=
    (List.perm_insertionSort nestedRel items).mem_iff.mpr
      (List.mem_map_of_mem _ (List.mem_filter.mpr ⟨hex, hpemq⟩))
  have hsorted : List.Sorted nestedRel (List.insertionSort nestedRel items) :=
    List.sorted_insertionSort nestedRel items
  cases hcase : List.insertionSort nestedRel items with
  | nil =>
    rw [hcase] at hmem_sort
    exact absurd hmem_sort (List.not_mem_nil _)
  | cons hd tl =>
    have hhd_items : hd ∈ items :=
      (List.perm_insertionSort nestedRel items).mem_iff.mp
        (hcase ▸ List.mem_cons_self hd tl)
    rcases List.mem_map.mp hhd_items with ⟨m, _, hm⟩
    have hone : (nestedItem scorer q emq).name_exact_match = 1 := by
      show (if emq = rstripDots (lowerStr q) then 1 else 0) = 1
      rw [if_pos hemq]
    have hmain : hd.module_name = emq := by
      rw [hcase] at hmem_sort hsorted
      rcases List.mem_cons.mp hmem_sort with heq | htl
      · rw [← heq]
        rfl
      · have hrel : nestedRel hd (nestedItem scorer q emq) :=
          (List.sorted_cons.mp hsorted).1 _ htl
        have hle := nestedLe_exact_le hrel
        rw [hone] at hle
        by_cases hm2 : m = emq
        · rw [← hm, ← hm2]
          rfl
        · exfalso
          have hzero : hd.name_exact_match = 0 := by
            rw [← hm]
            show (if m = rstripDots (lowerStr q) then 1 else 0) = 0
            rw [if_neg (hemq ▸ hm2)]
          rw [hzero] at hle
          omega
    rw [hout, hcase]
    show some hd.module_name = some emq
    rw [hmain]

theorem C8_witness :
    (rstripDots (lowerStr "http.") ∈ ["http", "http.client"]) ∧
      (search_nested zeroScorer "http." ["http", "http.client"]).2.head? =
        some (rstripDots (lowerStr "http.")) :=
  ⟨by decide,
   C8_exact_match_first zeroScorer "http." ["http", "http.client"] (by decide)⟩
